import Mathlib

/-!
# Verification of the statistical language-processing module (`text.py`)

A shallow embedding of the parts of `text.py` that the specification's claims
are about: the Viterbi word segmenter, the shift/permutation cipher codec, the
`PermutationDecoder` scorer, and the `PermutationDecoderProblem` search problem.

Python strings are embedded as `List Char`, Python floats as exact rationals
(`ℚ`) for the combinatorial algorithms and as real numbers (`ℝ`) for the
logarithmic scorer.  Python dicts are embedded as association lists in insertion
order (new keys are appended; assigning to an existing key updates it in
place), which reproduces dict iteration order and lookup semantics.
-/

namespace AimaText

/-! ## Viterbi word segmentation (`viterbi_segment`)

`best` and `words` are the two arrays of the dynamic program; the nested
loops, the `>=` overwrite test, and the backward reconstruction loop are
transcribed from `viterbi_segment` in `text.py`.  The Python `while i > 0`
loop is embedded with explicit fuel (`text.length + 1` suffices because every
recorded winning word at a position `i ≥ 1` is nonempty). -/

/-- Python's `text[j:i]` for `0 ≤ j ≤ i`. -/
def extract (t : List Char) (j i : Nat) : List Char :=
  (t.drop j).take (i - j)

/-- One iteration of the inner loop of `viterbi_segment`:
`w = text[j:i]; curr_score = P[w] * best[i - len(w)];
if curr_score >= best[i]: best[i] = curr_score; words[i] = w`. -/
def innerStep (t : List Char) (P : List Char → ℚ) (i : Nat)
    (st : List ℚ × List (List Char)) (j : Nat) : List ℚ × List (List Char) :=
  let w := extract t j i
  let curr := P w * st.1.getD (i - w.length) 0
  if st.1.getD i 0 ≤ curr then (st.1.set i curr, st.2.set i w) else st

/-- The inner loop `for j in range(0, i)` of `viterbi_segment`. -/
def outerStep (t : List Char) (P : List Char → ℚ) (st : List ℚ × List (List Char))
    (i : Nat) : List ℚ × List (List Char) :=
  (List.range i).foldl (innerStep t P i) st

/-- The initial arrays: `best = [1.0] + [0.0]*n`, `words = [''] + list(text)`. -/
def vInit (t : List Char) : List ℚ × List (List Char) :=
  (1 :: List.replicate t.length 0, [] :: t.map (fun c => [c]))

/-- The two DP arrays after the full `for i in range(n+1)` loop. -/
def vTabs (t : List Char) (P : List Char → ℚ) : List ℚ × List (List Char) :=
  (List.range (t.length + 1)).foldl (outerStep t P) (vInit t)

/-- The backward reconstruction loop
`while i > 0: sequence[0:0] = [words[i]]; i = i - len(words[i])`,
with fuel bounding the number of iterations. -/
def reconstruct (ws : List (List Char)) : Nat → Nat → List (List Char)
  | 0, _ => []
  | fuel + 1, i =>
    if i = 0 then []
    else reconstruct ws fuel (i - (ws.getD i []).length) ++ [ws.getD i []]

/-- Embedding of `viterbi_segment(text, P)`: the recovered word sequence and `best[-1]`. -/
def viterbi_segment (t : List Char) (P : List Char → ℚ) :
    List (List Char) × ℚ :=
  let tb := vTabs t P
  (reconstruct tb.2 (t.length + 1) t.length, tb.1.getD t.length 0)

/-- Modelled from the spec: `learning.CountingProbDist` (not under `src/`) —
"probability(symbol): count/total, or a configurable `default` for unseen
symbols".  With `default = 0` (the value `UnigramWordModel` passes for the
segmentation claims) a seen symbol scores `count/total` and an unseen one `0`. -/
def cpdP (obs : List (List Char)) (default : ℚ) (w : List Char) : ℚ :=
  if w ∈ obs then (obs.count w : ℚ) / (obs.length : ℚ) else default

/-- Training observations realizing an exact tie between the one-word split
`"ab"` and the two-word split `"a" + "b"`:
`P(ab) = 2/12`, `P(a) = 4/12`, `P(b) = 6/12`, so `P(ab) = P(a)·P(b)`. -/
def tieObs : List (List Char) :=
  [['a', 'b'], ['a', 'b'],
   ['a'], ['a'], ['a'], ['a'],
   ['b'], ['b'], ['b'], ['b'], ['b'], ['b']]

/-! ## Cipher codec (`alphabet`, `translate`, `maketrans`, `encode`,
`shift_encode`)

`shift_encode(plaintext, n)` is `encode(plaintext, alphabet[n:] + alphabet[:n])`
where the slices have Python semantics: an arbitrary integer index is clamped
to the string's bounds, and a negative index counts from the end. -/

def alphabet : List Char := "abcdefghijklmnopqrstuvwxyz".toList

/-- Embedding of `translate(plaintext, function)`: apply `function` to every character and
concatenate the results (the Python loop `result += function(char)`). -/
def translate (p : List Char) (f : Char → Char) : List Char := p.map f

/-- Embedding of `maketrans(from_, to_)`: build the dict `{from_[n]: to_[n]}` in
enumeration order (later duplicate keys overwrite earlier ones — hence the
search over the reversed pair list) and look up with `trans_table.get(char,
char)`.  At every call site `to_` is exactly as long as `from_`, so the
truncation by `zip` never fires. -/
def maketrans (from_ to_ : List Char) : Char → Char := fun c =>
  match (from_.zip to_).reverse.find? (fun p => p.1 == c) with
  | some p => p.2
  | none => c

/-- The translation function `encode` builds:
`maketrans(alphabet + alphabet.upper(), code + code.upper())`. -/
def transChar (code : List Char) : Char → Char :=
  maketrans (alphabet ++ alphabet.map Char.toUpper)
    (code ++ code.map Char.toUpper)

/-- Embedding of `encode(plaintext, code)`. -/
def encode (p code : List Char) : List Char := translate p (transChar code)

/-- Python's `l[n:]` for an arbitrary integer `n` (negative counts from the
end; out-of-range clamps). -/
def pySliceFrom (l : List Char) (n : Int) : List Char :=
  if n < 0 then l.drop ((l.length : Int) + n).toNat else l.drop n.toNat

/-- Python's `l[:n]` for an arbitrary integer `n`. -/
def pySliceTo (l : List Char) (n : Int) : List Char :=
  if n < 0 then l.take ((l.length : Int) + n).toNat else l.take n.toNat

/-- Embedding of `shift_encode(plaintext, n) = encode(plaintext, alphabet[n:] + alphabet[:n])`. -/
def shift_encode (p : List Char) (n : Int) : List Char :=
  encode p (pySliceFrom alphabet n ++ pySliceTo alphabet n)

/-- The DP arrays after the first `m` iterations of the outer loop
(`vTabs = vPart (n+1)`). -/
def vPart (t : List Char) (P : List Char → ℚ) (m : Nat) : List ℚ × List (List Char) :=
  (List.range m).foldl (outerStep t P) (vInit t)

/-- The candidate score `P[w] * best[j]` (with `w = text[j:i]`) of the split
point `j` for the prefix ending at `i`, read off the loop-time arrays. -/
def scPart (t : List Char) (P : List Char → ℚ) (i j : Nat) : ℚ :=
  P (extract t j i) * (vPart t P i).1.getD j 0

/-- The candidate score `P[w] * best[j]` of split point `j` for position `i`,
read off the final arrays (for `j < i` the two readings agree). -/
def scF (t : List Char) (P : List Char → ℚ) (i j : Nat) : ℚ :=
  P (extract t j i) * (vTabs t P).1.getD j 0

/-! ## `words`, `canonicalize`, and the `PermutationDecoderProblem` search

A search state is a Python dict (`hashabledict`), embedded as an association
list in insertion order: assigning a fresh key appends, assigning an existing
key updates it in place, and `values()` lists values in insertion order. -/

/-- A character matched by the regex class `[a-z0-9]` of `words`. -/
def isWordChar (c : Char) : Bool := c.isLower || c.isDigit

/-- The run extractor behind `words`: `re.findall('[a-z0-9]+', text)` on an
already-lowercased text, i.e. the maximal runs of `[a-z0-9]` characters.
`acc` carries the current run in reverse. -/
def wordsGo : List Char → List Char → List (List Char)
  | acc, [] => if acc.isEmpty then [] else [acc.reverse]
  | acc, c :: cs =>
    if isWordChar c then wordsGo (c :: acc) cs
    else if acc.isEmpty then wordsGo [] cs
    else acc.reverse :: wordsGo [] cs

/-- Embedding of `words(text)`: lowercase, then take the maximal `[a-z0-9]+` runs. -/
def wordsF (text : List Char) : List (List Char) :=
  wordsGo [] (text.map Char.toLower)

/-- Embedding of `canonicalize(text) = ' '.join(words(text))`. -/
def canonicalizeF (text : List Char) : List Char :=
  List.intercalate [' '] (wordsF text)

/-- The search state: a `hashabledict` from cipher characters to plain
characters, in insertion order. -/
abbrev Dict := List (Char × Char)

/-- Python `k in d` (key membership). -/
def hasKey (st : Dict) (k : Char) : Bool := st.any (fun p => p.1 == k)

/-- Python `d.values()`, in insertion order. -/
def valuesD (st : Dict) : List Char := st.map Prod.snd

/-- Python `d[k]` as an `Option` (`none` models a `KeyError`).  Later
assignments to the same key take precedence, hence the recursion checks the
remainder of the list first. -/
def lookupD : Dict → Char → Option Char
  | [], _ => none
  | p :: rest, k =>
    match lookupD rest k with
    | some v => some v
    | none => if p.1 = k then some p.2 else none

/-- Python `d[k] = v`: update the key in place if present, else append. -/
def dictSet (st : Dict) (k v : Char) : Dict :=
  if hasKey st k then st.map (fun p => if p.1 == k then (k, v) else p)
  else st ++ [(k, v)]

/-- One comparison step of Python's `max(seq, key=f)`: a strictly greater key
replaces the running maximum, so the first maximal element is kept. -/
def pyMaxStep (f : Char → ℚ) (acc : Option Char) (x : Char) : Option Char :=
  match acc with
  | none => some x
  | some m => if f x > f m then some x else acc

/-- Modelled from the spec: `utils.argmax` (not under `src/`) — Python's
`max(seq, key=f)`, which scans left to right and keeps the first maximal
element; on an empty sequence Python raises `ValueError`, modelled by
`none`. -/
def pyMax (f : Char → ℚ) (l : List Char) : Option Char :=
  l.foldl (pyMaxStep f) none

/-- Embedding of `PermutationDecoderProblem.actions(state)`:
`search_list = [c for c in chardomain if c not in state]`,
`target_list = [c for c in alphabet if c not in state.values()]`,
`plainchar = argmax(search_list, key=lambda c: P1[c])`, then one action
`(plainchar, cipherchar)` per `cipherchar in target_list`.  `none` models the
`ValueError` from `argmax` on an empty `search_list`. -/
def actionsF (domain : List Char) (P1 : Char → ℚ) (st : Dict) :
    Option (List (Char × Char)) :=
  let search_list := domain.filter (fun c => ¬ hasKey st c)
  let target_list := alphabet.filter (fun c => ¬ (valuesD st).contains c)
  (pyMax P1 search_list).map (fun plainchar => target_list.map fun c => (plainchar, c))

/-- Embedding of `PermutationDecoderProblem.result(state, action)`:
`new_state = hashabledict(state); new_state[action[0]] = action[1]` — the
assignment mutates only the fresh copy, so the parent value is untouched. -/
def resultF (st : Dict) (action : Char × Char) : Dict :=
  dictSet st action.1 action.2

/-- Embedding of `PermutationDecoderProblem.goal_test(state)`:
`len(state) >= len(chardomain)`. -/
def goalF (domain : List Char) (st : Dict) : Prop :=
  domain.length ≤ st.length

/-- The states reachable from the initial empty `hashabledict` by actions
produced by `actions` and transitions by `result`. -/
inductive Reachable (domain : List Char) (P1 : Char → ℚ) : Dict → Prop
  | init : Reachable domain P1 []
  | step (st : Dict) (acts : List (Char × Char)) (a : Char × Char) :
      Reachable domain P1 st → actionsF domain P1 st = some acts → a ∈ acts →
      Reachable domain P1 (resultF st a)

/-- Embedding of `PermutationDecoder.decode`'s character domain:
`{c for c in canonicalize(ciphertext) if c != ' '}` (a Python set — only its
membership and size matter below). -/
def domainOf (ciphertext : List Char) : List Char :=
  ((canonicalizeF ciphertext).filter (fun c => c != ' ')).dedup

/-- How a call to `PermutationDecoder.decode` can end: a decoded plaintext, a
`KeyError` while translating with the final mapping, or the `AttributeError`
raised by `solution.state[' '] = ' '` when the search engine returned `None`.
No other outcome exists in the source — in particular no
`UnsupportedDomainError` (no such class is defined anywhere). -/
inductive DecodeOutcome
  | plaintext (t : List Char)
  | keyErrorTranslate
  | noneAttributeError

/-- Embedding of `PermutationDecoder.decode(ciphertext)`.  The external engine
`search.best_first_graph_search` (not under `src/`) is Modelled from the spec:
"the engine returns a terminal node whose state satisfies goalTest" — so it
yields a reachable goal state when one exists and Python `None` otherwise,
upon which `solution.state` raises `AttributeError`. -/
noncomputable def decodeF (P1 : Char → ℚ) (ciphertext : List Char) :
    DecodeOutcome :=
  let ct := canonicalizeF ciphertext
  let domain := domainOf ciphertext
  letI : Decidable (∃ st, Reachable domain P1 st ∧ goalF domain st) :=
    Classical.propDecidable _
  if h : ∃ st, Reachable domain P1 st ∧ goalF domain st then
    match ct.mapM (fun c => lookupD (dictSet h.choose ' ' ' ') c) with
    | some out => DecodeOutcome.plaintext out
    | none => DecodeOutcome.keyErrorTranslate
  else DecodeOutcome.noneAttributeError

/-! ## The three models trained by `PermutationDecoder.__init__`

`CountingProbDist` keys are Python values: `Pwords` and `P1` count strings,
while `NgramWordModel.add_sequence` counts *tuples*.  A Python string never
compares equal to a tuple, so the two kinds are embedded as distinct
constructors of one key type. -/

/-- A Python dict key as used by the `CountingProbDist` instances here:
either a string (`str`) or a tuple of strings. -/
inductive PyKey
  | str (s : List Char)
  | tup (ws : List (List Char))
deriving DecidableEq

/-- Modelled from the spec: the count table of `learning.CountingProbDist`
(not under `src/`) — each observation increments its symbol's count. -/
def cpdCount (obs : List PyKey) (k : PyKey) : Nat := obs.count k

/-- Observations of `Pwords = UnigramWordModel(words(training_text))`: one
`str` key per word. -/
def pwordsObs (tt : List Char) : List PyKey := (wordsF tt).map PyKey.str

/-- Observations of `P1 = UnigramWordModel(training_text)` (`# By letter`):
Python iterates a `str` by characters, so one length-1 `str` key per raw
character of the training text. -/
def p1Obs (tt : List Char) : List PyKey := tt.map fun c => PyKey.str [c]

/-- Observations of `P2 = NgramWordModel(2, words(training_text))`
(`# By letter pair`): `add_sequence` slides a width-2 window over the *word
list*, so every key is a 2-tuple of whole words. -/
def p2Obs (tt : List Char) : List PyKey :=
  ((wordsF tt).zip (wordsF tt).tail).map fun p => PyKey.tup [p.1, p.2]

/-- The observations an `NgramCharModel(2, words(training_text))` — the
character-pair model the spec describes — would record: each word is
prefixed with a space and a width-2 window slides over its characters,
giving 2-tuples of 1-character strings. -/
def charBigramObs (tt : List Char) : List PyKey :=
  (wordsF tt).flatMap fun w =>
    ((' ' :: w).zip w).map fun p => PyKey.tup [[p.1], [p.2]]

/-- The three training-observation lists built by
`PermutationDecoder.__init__(training_text)`. -/
structure PDModels where
  Pwords : List PyKey
  P1 : List PyKey
  P2 : List PyKey

/-- Embedding of `PermutationDecoder.__init__`. -/
def permutationDecoderInit (tt : List Char) : PDModels :=
  ⟨pwordsObs tt, p1Obs tt, p2Obs tt⟩

/-! ## The `PermutationDecoder.score` cost function

`score` is embedded over abstract real-valued model lookups `Pw`, `P1c`,
`P2c` (the probability queries `self.Pwords[word]`, `self.P1[c]`,
`self.P2[b]`); Python's floats are idealized as real numbers. -/

/-- Embedding of `bigrams(text) = [text[i:i+2] for i in range(len(text) - 1)]`. -/
def bigramsF (l : List Char) : List (List Char) :=
  (List.range (l.length - 1)).map fun i => extract l i (i + 2)

/-- The completed mapping built inside `score`:
`full_code = code.copy()`,
`full_code.update({x: x for x in self.chardomain if x not in code})`,
`full_code[' '] = ' '`. -/
def buildFullCode (code : Dict) (chardomain : List Char) : Dict :=
  dictSet
    (chardomain.foldl (fun d x => if hasKey code x then d else dictSet d x x) code)
    ' ' ' '

/-- The completion as the spec words it: space maps to space, a mapped
character follows the partial mapping, an unmapped one maps to itself. -/
def completedFn (code : Dict) (c : Char) : Char :=
  if c = ' ' then ' '
  else
    match lookupD code c with
    | some v => v
    | none => c

/-- Embedding of `logP`: the sum of the three log-probability terms of `score`, with the
per-model floors `1e-20`, `1e-5`, `1e-10` added "to prevent computing
log(0)". -/
noncomputable def scoreLogP (Pw : List Char → ℝ) (P1c : Char → ℝ)
    (P2c : List Char → ℝ) (text : List Char) : ℝ :=
  ((wordsF text).map fun w => Real.log (Pw w + 1 / 10 ^ 20)).sum +
  (text.map fun c => Real.log (P1c c + 1 / 10 ^ 5)).sum +
  ((bigramsF text).map fun b => Real.log (P2c b + 1 / 10 ^ 10)).sum

/-- Embedding of `PermutationDecoder.score(code)`: complete the mapping, translate the
(already canonicalized) ciphertext through `full_code[c]` (`none` models the
`KeyError` on an uncovered character), and return `-exp(logP)`.  Pure and
deterministic: a function of its arguments alone. -/
noncomputable def scoreF (Pw : List Char → ℝ) (P1c : Char → ℝ)
    (P2c : List Char → ℝ) (chardomain ciphertext : List Char) (code : Dict) :
    Option ℝ :=
  match ciphertext.mapM (fun c => lookupD (buildFullCode code chardomain) c) with
  | none => none
  | some text => some (-Real.exp (scoreLogP Pw P1c P2c text))

/-- C9: `viterbi_segment("", P) == ([], 1.0)` for every model `P`. -/
theorem viterbi_segment_empty (P : List Char → ℚ) :
    viterbi_segment [] P = ([], 1) := rfl

/-- C1 (counterexample): with a genuine trained unigram model in which the
one-word split `"ab"` ties the two-word split `"a","b"`
(`P(ab)·best[0] = P(b)·best[1]`), the recorded winning word at position 2 is
the *shorter* `"b"`, and the returned segmentation is the two-word split, not
the single longer token. -/
theorem viterbi_tie_prefers_shorter_cex :
    cpdP tieObs 0 ['a', 'b'] * 1 = cpdP tieObs 0 ['b'] * (cpdP tieObs 0 ['a'] * 1) ∧
    (vTabs ['a', 'b'] (cpdP tieObs 0)).2.getD 2 [] = ['b'] ∧
    viterbi_segment ['a', 'b'] (cpdP tieObs 0) = ([['a'], ['b']], 1/6) := by
  have ha : cpdP tieObs 0 ['a'] = 1/3 := by
    rw [cpdP, if_pos (by decide : (['a'] : List Char) ∈ tieObs),
      (by decide : tieObs.count ['a'] = 4), (by decide : tieObs.length = 12)]
    norm_num
  have hb : cpdP tieObs 0 ['b'] = 1/2 := by
    rw [cpdP, if_pos (by decide : (['b'] : List Char) ∈ tieObs),
      (by decide : tieObs.count ['b'] = 6), (by decide : tieObs.length = 12)]
    norm_num
  have hab : cpdP tieObs 0 ['a', 'b'] = 1/6 := by
    rw [cpdP, if_pos (by decide : (['a', 'b'] : List Char) ∈ tieObs),
      (by decide : tieObs.count ['a', 'b'] = 2), (by decide : tieObs.length = 12)]
    norm_num
  refine ⟨by rw [ha, hb, hab]; norm_num, ?_, ?_⟩ <;>
    norm_num [viterbi_segment, vTabs, vInit, outerStep, innerStep, extract, reconstruct,
      List.range_succ, ha, hb, hab]

/-! ### Structural lemmas about the two DP arrays -/

theorem foldl_inv {α β : Type*} {Inv : α → Prop} (f : α → β → α)
    (hstep : ∀ st x, Inv st → Inv (f st x)) :
    ∀ (l : List β) (st : α), Inv st → Inv (l.foldl f st) := by
  intro l
  induction l with
  | nil => exact fun st h => h
  | cons x xs ih => exact fun st h => ih _ (hstep _ _ h)

theorem innerStep_getD (t : List Char) (P : List Char → ℚ) (i : Nat)
    (st : List ℚ × List (List Char)) (j idx : Nat) (h : idx ≠ i) :
    (innerStep t P i st j).1.getD idx 0 = st.1.getD idx 0 ∧
    (innerStep t P i st j).2.getD idx [] = st.2.getD idx [] := by
  unfold innerStep
  dsimp only
  split
  · constructor <;> simp [List.getD, List.getElem?_set_ne (Ne.symm h)]
  · exact ⟨rfl, rfl⟩

theorem innerfold_getD (t : List Char) (P : List Char → ℚ) (i : Nat)
    (js : List Nat) (idx : Nat) (h : idx ≠ i) :
    ∀ st : List ℚ × List (List Char),
      (js.foldl (innerStep t P i) st).1.getD idx 0 = st.1.getD idx 0 ∧
      (js.foldl (innerStep t P i) st).2.getD idx [] = st.2.getD idx [] := by
  induction js with
  | nil => exact fun st => ⟨rfl, rfl⟩
  | cons j js ih =>
    intro st
    refine ⟨?_, ?_⟩ <;>
      simp only [List.foldl_cons, (ih _).1, (ih _).2,
        (innerStep_getD t P i st j idx h).1, (innerStep_getD t P i st j idx h).2]

theorem innerStep_lengths (t : List Char) (P : List Char → ℚ) (i : Nat)
    (st : List ℚ × List (List Char)) (j : Nat) :
    (innerStep t P i st j).1.length = st.1.length ∧
    (innerStep t P i st j).2.length = st.2.length := by
  unfold innerStep
  dsimp only
  split
  · exact ⟨List.length_set .., List.length_set ..⟩
  · exact ⟨rfl, rfl⟩

theorem innerfold_lengths (t : List Char) (P : List Char → ℚ) (i : Nat)
    (js : List Nat) :
    ∀ st : List ℚ × List (List Char),
      (js.foldl (innerStep t P i) st).1.length = st.1.length ∧
      (js.foldl (innerStep t P i) st).2.length = st.2.length := by
  induction js with
  | nil => exact fun st => ⟨rfl, rfl⟩
  | cons j js ih =>
    intro st
    refine ⟨?_, ?_⟩ <;>
      simp only [List.foldl_cons, (ih _).1, (ih _).2,
        (innerStep_lengths t P i st j).1, (innerStep_lengths t P i st j).2]

theorem vPart_succ (t : List Char) (P : List Char → ℚ) (m : Nat) :
    vPart t P (m + 1) = outerStep t P (vPart t P m) m := by
  unfold vPart
  rw [List.range_succ, List.foldl_append, List.foldl_cons, List.foldl_nil]

theorem vPart_lengths (t : List Char) (P : List Char → ℚ) (m : Nat) :
    (vPart t P m).1.length = t.length + 1 ∧
    (vPart t P m).2.length = t.length + 1 := by
  induction m with
  | zero => simp [vPart, vInit]
  | succ m ih =>
    rw [vPart_succ]
    unfold outerStep
    refine ⟨?_, ?_⟩ <;>
      simp only [(innerfold_lengths t P m (List.range m) _).1,
        (innerfold_lengths t P m (List.range m) _).2, ih.1, ih.2]

theorem vPart_agree (t : List Char) (P : List Char → ℚ) (idx m m' : Nat)
    (h1 : idx < m) (h2 : m ≤ m') :
    (vPart t P m').1.getD idx 0 = (vPart t P m).1.getD idx 0 ∧
    (vPart t P m').2.getD idx [] = (vPart t P m).2.getD idx [] := by
  induction m', h2 using Nat.le_induction with
  | base => exact ⟨rfl, rfl⟩
  | succ m' hm ih =>
    rw [vPart_succ]
    unfold outerStep
    have hne : idx ≠ m' := by omega
    refine ⟨?_, ?_⟩ <;>
      simp only [(innerfold_getD t P m' (List.range m') idx hne _).1,
        (innerfold_getD t P m' (List.range m') idx hne _).2, ih.1, ih.2]

theorem vPart_init_at (t : List Char) (P : List Char → ℚ) (idx m : Nat)
    (h : m ≤ idx) :
    (vPart t P m).1.getD idx 0 = (vInit t).1.getD idx 0 ∧
    (vPart t P m).2.getD idx [] = (vInit t).2.getD idx [] := by
  induction m with
  | zero => exact ⟨rfl, rfl⟩
  | succ m ih =>
    rw [vPart_succ]
    unfold outerStep
    have hne : idx ≠ m := by omega
    have ih' := ih (by omega)
    refine ⟨?_, ?_⟩ <;>
      simp only [(innerfold_getD t P m (List.range m) idx hne _).1,
        (innerfold_getD t P m (List.range m) idx hne _).2, ih'.1, ih'.2]

theorem vInit_fst_getD_nonneg (t : List Char) (idx : Nat) :
    0 ≤ (vInit t).1.getD idx 0 := by
  match idx with
  | 0 => norm_num [vInit]
  | k + 1 => simp [vInit, List.getD]

theorem vPart_fst_nonneg (t : List Char) (P : List Char → ℚ)
    (hP : ∀ w, 0 ≤ P w) (m : Nat) : ∀ idx, 0 ≤ (vPart t P m).1.getD idx 0 := by
  have hstep : ∀ (i : Nat) (st : List ℚ × List (List Char)) (j : Nat),
      (∀ idx, 0 ≤ st.1.getD idx 0) →
      ∀ idx, 0 ≤ (innerStep t P i st j).1.getD idx 0 := by
    intro i st j hInv idx
    unfold innerStep
    dsimp only
    split
    · rcases eq_or_ne idx i with rfl | hne
      · rcases lt_or_le idx st.1.length with hlt | hle
        · rw [List.getD_eq_getElem _ _ (by simpa using hlt), List.getElem_set_self]
          exact mul_nonneg (hP _) (hInv _)
        · rw [List.getD_eq_default _ _ (by simpa using hle)]
      · have heq : ∀ (a : ℚ), (st.1.set i a).getD idx 0 = st.1.getD idx 0 := by
          intro a
          simp [List.getD, List.getElem?_set_ne (Ne.symm hne)]
        rw [heq]
        exact hInv idx
    · exact hInv idx
  induction m with
  | zero => exact fun idx => vInit_fst_getD_nonneg t idx
  | succ m ih =>
    rw [vPart_succ]
    unfold outerStep
    exact foldl_inv _ (hstep m) (List.range m) _ ih

theorem extract_length (t : List Char) (j i : Nat) (h : i ≤ t.length) :
    (extract t j i).length = i - j := by
  simp only [extract, List.length_take, List.length_drop]
  omega

theorem getD_set_bound {α : Type*} (l : List α) (i : Nat) (a d : α)
    (h : i < l.length) : (l.set i a).getD i d = a := by
  rw [List.getD_eq_getElem _ _ (by simpa using h), List.getElem_set_self]

/-- Rewriting of `innerStep` with the index arithmetic `best[i - len(w)] = best[j]`
resolved (valid whenever `j ≤ i ≤ length`). -/
theorem innerStep_eq (t : List Char) (P : List Char → ℚ) (i : Nat)
    (st : List ℚ × List (List Char)) (j : Nat) (hj : j ≤ i) (hi : i ≤ t.length) :
    innerStep t P i st j =
      if st.1.getD i 0 ≤ P (extract t j i) * st.1.getD j 0 then
        (st.1.set i (P (extract t j i) * st.1.getD j 0), st.2.set i (extract t j i))
      else st := by
  unfold innerStep
  dsimp only
  rw [extract_length t j i hi, show i - (i - j) = j from by omega]

/-- Entry `best[i]` starts the `i`-th outer iteration at its initial value `0`. -/
theorem vPart_fst_getD_self (t : List Char) (P : List Char → ℚ) (i : Nat)
    (h1 : 1 ≤ i) : (vPart t P i).1.getD i 0 = 0 := by
  rw [(vPart_init_at t P i i le_rfl).1]
  match i, h1 with
  | k + 1, _ => simp [vInit, List.getD]

/-- Characterization of the inner loop of `viterbi_segment` at position `i`:
after the first `k` iterations, `best[i]`/`words[i]` record the candidate with
the *largest* split point `j` among those of maximal score — an equal score
always overwrites, so the last (shortest-word) tying candidate wins. -/
theorem inner_char (t : List Char) (P : List Char → ℚ) (hP : ∀ w, 0 ≤ P w)
    (i : Nat) (h2 : i ≤ t.length) :
    ∀ k, 1 ≤ k → k ≤ i →
    ∃ jw, jw < k ∧
      ((List.range k).foldl (innerStep t P i) (vPart t P i)).1.getD i 0 =
        scPart t P i jw ∧
      ((List.range k).foldl (innerStep t P i) (vPart t P i)).2.getD i [] =
        extract t jw i ∧
      (∀ j, j < k → scPart t P i j ≤ scPart t P i jw) ∧
      (∀ j, jw < j → j < k → scPart t P i j < scPart t P i jw) := by
  intro k
  induction k with
  | zero => omega
  | succ k ih =>
    intro _ hki
    rcases Nat.eq_zero_or_pos k with rfl | hk1
    · -- base case: the very first iteration `j = 0` always overwrites
      have h1 : 1 ≤ i := hki
      simp only [List.range_succ, List.range_zero, List.nil_append,
        List.foldl_cons, List.foldl_nil,
        innerStep_eq t P i _ 0 (by omega) h2]
      rw [if_pos (by
        rw [vPart_fst_getD_self t P i h1]
        exact mul_nonneg (hP _) (vPart_fst_nonneg t P hP i 0))]
      refine ⟨0, Nat.zero_lt_one, ?_, ?_, ?_, ?_⟩
      · exact getD_set_bound _ i _ 0 (by rw [(vPart_lengths t P i).1]; omega)
      · exact getD_set_bound _ i _ [] (by rw [(vPart_lengths t P i).2]; omega)
      · intro j hj
        interval_cases j
        exact le_refl _
      · omega
    · -- inductive step: candidate `j = k` overwrites exactly when it ties or
      -- improves on the recorded maximum
      obtain ⟨jw, hjw, hbest, hword, hmax, hlast⟩ := ih hk1 (by omega)
      have hk : k < i := by omega
      have hAlen := innerfold_lengths t P i (List.range k) (vPart t P i)
      have hAk := (innerfold_getD t P i (List.range k) k (by omega) (vPart t P i)).1
      rw [List.range_succ, List.foldl_append, List.foldl_cons, List.foldl_nil,
        innerStep_eq t P i _ k (by omega) h2, hAk, hbest]
      have hcurr :
          P (extract t k i) * (vPart t P i).1.getD k 0 = scPart t P i k := rfl
      rw [hcurr]
      by_cases hc : scPart t P i jw ≤ scPart t P i k
      · rw [if_pos hc]
        refine ⟨k, by omega, ?_, ?_, ?_, ?_⟩
        · exact getD_set_bound _ i _ 0
            (by rw [hAlen.1, (vPart_lengths t P i).1]; omega)
        · exact getD_set_bound _ i _ []
            (by rw [hAlen.2, (vPart_lengths t P i).2]; omega)
        · intro j hj
          rcases Nat.lt_or_ge j k with hjk | hjk
          · exact (hmax j hjk).trans hc
          · have : j = k := by omega
            subst this
            exact le_refl _
        · omega
      · rw [if_neg hc]
        push_neg at hc
        refine ⟨jw, by omega, hbest, hword, ?_, ?_⟩
        · intro j hj
          rcases Nat.lt_or_ge j k with hjk | hjk
          · exact hmax j hjk
          · have : j = k := by omega
            subst this
            exact le_of_lt hc
        · intro j hj1 hj2
          rcases Nat.lt_or_ge j k with hjk | hjk
          · exact hlast j hj1 hjk
          · have : j = k := by omega
            subst this
            exact hc

theorem scPart_eq_scF (t : List Char) (P : List Char → ℚ) (i j : Nat)
    (hj : j < i) (hi : i ≤ t.length) : scPart t P i j = scF t P i j := by
  rw [scPart, scF, show vTabs t P = vPart t P (t.length + 1) from rfl,
    (vPart_agree t P j (j + 1) i (by omega) (by omega)).1,
    (vPart_agree t P j (j + 1) (t.length + 1) (by omega) (by omega)).1]

/-- C1 (amended): at every position `i`, the recorded winning word is the
candidate `text[jw:i]` with the *largest* split point `jw` among those of
maximal score `P[w]·best[j]` — so on a tie the later-examined, shorter word
overwrites the earlier, longer one (the opposite of the claimed direction). -/
theorem viterbi_last_max_wins (t : List Char) (P : List Char → ℚ)
    (hP : ∀ w, 0 ≤ P w) (i : Nat) (h1 : 1 ≤ i) (h2 : i ≤ t.length) :
    ∃ jw, jw < i ∧
      (vTabs t P).2.getD i [] = extract t jw i ∧
      (vTabs t P).1.getD i 0 = scF t P i jw ∧
      (∀ j, j < i → scF t P i j ≤ scF t P i jw) ∧
      (∀ j, jw < j → j < i → scF t P i j < scF t P i jw) := by
  obtain ⟨jw, hjw, hbest, hword, hmax, hlast⟩ := inner_char t P hP i h2 i h1 le_rfl
  have hag := vPart_agree t P i (i + 1) (t.length + 1) (by omega) (by omega)
  refine ⟨jw, hjw, ?_, ?_, ?_, ?_⟩
  · rw [show vTabs t P = vPart t P (t.length + 1) from rfl, hag.2, vPart_succ]
    exact hword
  · rw [show vTabs t P = vPart t P (t.length + 1) from rfl, hag.1, vPart_succ,
      ← scPart_eq_scF t P i jw hjw h2]
    exact hbest
  · intro j hj
    rw [← scPart_eq_scF t P i j hj h2, ← scPart_eq_scF t P i jw hjw h2]
    exact hmax j hj
  · intro j hj1 hj2
    rw [← scPart_eq_scF t P i j hj2 h2, ← scPart_eq_scF t P i jw hjw h2]
    exact hlast j hj1 hj2

/-- Witness for `viterbi_last_max_wins` at `text = "a"`, the constant model
`P = 1`, position `i = 1`. -/
theorem viterbi_last_max_wins_witness :
    (∀ w : List Char, 0 ≤ (fun _ => (1 : ℚ)) w) ∧ 1 ≤ 1 ∧
      1 ≤ (['a'] : List Char).length ∧
    ∃ jw, jw < 1 ∧
      (vTabs ['a'] (fun _ => (1 : ℚ))).2.getD 1 [] = extract ['a'] jw 1 ∧
      (vTabs ['a'] (fun _ => (1 : ℚ))).1.getD 1 0 =
        scF ['a'] (fun _ => (1 : ℚ)) 1 jw ∧
      (∀ j, j < 1 →
        scF ['a'] (fun _ => (1 : ℚ)) 1 j ≤ scF ['a'] (fun _ => (1 : ℚ)) 1 jw) ∧
      (∀ j, jw < j → j < 1 →
        scF ['a'] (fun _ => (1 : ℚ)) 1 j < scF ['a'] (fun _ => (1 : ℚ)) 1 jw) :=
  ⟨fun _ => zero_le_one, le_rfl, by decide,
    viterbi_last_max_wins ['a'] (fun _ => 1) (fun _ => zero_le_one) 1 le_rfl
      (by decide)⟩

theorem vInit_snd_getD (t : List Char) (i : Nat) (h1 : 1 ≤ i)
    (h2 : i ≤ t.length) : (vInit t).2.getD i [] = extract t (i - 1) i := by
  match i, h1 with
  | k + 1, _ =>
    have hk : k < t.length := by omega
    simp only [vInit, List.getD_cons_succ, Nat.add_sub_cancel]
    rw [List.getD_eq_getElem _ _ (by simpa using hk), List.getElem_map, extract,
      List.drop_eq_getElem_cons hk, show k + 1 - k = 1 from by omega]
    rfl

/-- Every recorded winning word at position `i ≥ 1` is a substring
`text[j:i]` with `j < i` — in particular it is nonempty. -/
theorem words_shape (t : List Char) (P : List Char → ℚ) (i : Nat)
    (h1 : 1 ≤ i) (h2 : i ≤ t.length) :
    ∃ j, j < i ∧ (vTabs t P).2.getD i [] = extract t j i := by
  have key : ∀ k, k ≤ i → ∃ j, j < i ∧
      ((List.range k).foldl (innerStep t P i) (vPart t P i)).2.getD i [] =
        extract t j i := by
    intro k
    induction k with
    | zero =>
      intro _
      refine ⟨i - 1, by omega, ?_⟩
      simpa using (vPart_init_at t P i i le_rfl).2.trans (vInit_snd_getD t i h1 h2)
    | succ k ih =>
      intro hk
      obtain ⟨j, hj, hw⟩ := ih (by omega)
      rw [List.range_succ, List.foldl_append, List.foldl_cons, List.foldl_nil,
        innerStep_eq t P i _ k (by omega) h2]
      split
      · refine ⟨k, by omega, ?_⟩
        exact getD_set_bound _ i _ []
          (by rw [(innerfold_lengths t P i (List.range k) _).2,
            (vPart_lengths t P i).2]; omega)
      · exact ⟨j, hj, hw⟩
  obtain ⟨j, hj, hw⟩ := key i le_rfl
  refine ⟨j, hj, ?_⟩
  rw [show vTabs t P = vPart t P (t.length + 1) from rfl,
    (vPart_agree t P i (i + 1) (t.length + 1) (by omega) (by omega)).2,
    vPart_succ]
  exact hw

theorem reconstruct_flatten (t : List Char) (P : List Char → ℚ) :
    ∀ fuel i, i ≤ fuel → i ≤ t.length →
      (reconstruct (vTabs t P).2 fuel i).flatten = t.take i := by
  intro fuel
  induction fuel with
  | zero =>
    intro i hif _
    interval_cases i
    rfl
  | succ fuel ih =>
    intro i hif hit
    rcases Nat.eq_zero_or_pos i with rfl | hi1
    · simp [reconstruct]
    · obtain ⟨j, hj, hw⟩ := words_shape t P i hi1 hit
      rw [reconstruct, if_neg (by omega), hw, extract_length t j i hit,
        show i - (i - j) = j from by omega, List.flatten_append,
        ih j (by omega) (by omega)]
      simp only [List.flatten, List.append_nil]
      rw [extract, ← List.take_add, show j + (i - j) = i from by omega]

/-- C10: for every text and every model, the word sequence returned by
`viterbi_segment` concatenates (in order, without separators) back to the
input text — the backward reconstruction partitions the whole string. -/
theorem viterbi_segment_flatten (t : List Char) (P : List Char → ℚ) :
    (viterbi_segment t P).1.flatten = t := by
  have h := reconstruct_flatten t P (t.length + 1) t.length (by omega) le_rfl
  simpa [viterbi_segment, List.take_length] using h

/-! ### Shift-cipher composition (claim C4) -/

theorem find_uniq {l : List (Char × Char)} {c v : Char} (hm : (c, v) ∈ l)
    (hu : ∀ p ∈ l, p.1 = c → p.2 = v) :
    l.find? (fun p => p.1 == c) = some (c, v) := by
  induction l with
  | nil => cases hm
  | cons p l ih =>
    by_cases hpc : p.1 = c
    · have hv : p.2 = v := hu p (by simp) hpc
      have hp : p = (c, v) := by
        cases p
        simp_all
      rw [List.find?_cons_of_pos _ (by simp [hpc]), hp]
    · have hm' : (c, v) ∈ l := by
        rcases List.mem_cons.mp hm with h | h
        · rw [← h] at hpc
          simp at hpc
        · exact h
      rw [List.find?_cons_of_neg _ (by simp [hpc])]
      exact ih hm' fun q hq hq1 => hu q (List.mem_cons_of_mem _ hq) hq1

theorem maketrans_get (f t : List Char) (hf : f.Nodup)
    (hlen : f.length = t.length) (i : Nat) (hi : i < f.length) :
    maketrans f t (f.get ⟨i, hi⟩) = t.get ⟨i, by omega⟩ := by
  have hit : i < t.length := by omega
  have hmem : (f.get ⟨i, hi⟩, t.get ⟨i, hit⟩) ∈ (f.zip t).reverse := by
    rw [List.mem_reverse]
    have hz : (f.zip t)[i]? = some (f.get ⟨i, hi⟩, t.get ⟨i, hit⟩) := by
      rw [List.getElem?_zip_eq_some]
      exact ⟨by rw [List.getElem?_eq_getElem hi]; rfl,
        by rw [List.getElem?_eq_getElem hit]; rfl⟩
    exact List.getElem?_mem hz
  have huniq : ∀ p ∈ (f.zip t).reverse, p.1 = f.get ⟨i, hi⟩ →
      p.2 = t.get ⟨i, hit⟩ := by
    intro p hp hp1
    obtain ⟨j, hj⟩ := List.getElem?_of_mem (List.mem_reverse.mp hp)
    rw [List.getElem?_zip_eq_some] at hj
    obtain ⟨hj1, hj2⟩ := hj
    have hjf : j < f.length := by
      by_contra hle
      rw [List.getElem?_eq_none (by omega)] at hj1
      cases hj1
    have hjt : j < t.length := by omega
    rw [List.getElem?_eq_getElem hjf] at hj1
    rw [List.getElem?_eq_getElem hjt] at hj2
    have hji : j = i := by
      apply hf.getElem_inj_iff.mp
      rw [Option.some_inj.mp hj1, hp1, List.get_eq_getElem]
    subst hji
    rw [← Option.some_inj.mp hj2, List.get_eq_getElem]
  rw [maketrans, find_uniq hmem huniq]

theorem alphabet_length : alphabet.length = 26 := rfl

theorem transChar_lower (code : List Char)
    (hc : code.length = alphabet.length) (i : Nat) (hi : i < alphabet.length) :
    transChar code (alphabet.get ⟨i, hi⟩) = code.get ⟨i, by omega⟩ := by
  have hf : (alphabet ++ alphabet.map Char.toUpper).Nodup := by decide
  have hlen : (alphabet ++ alphabet.map Char.toUpper).length =
      (code ++ code.map Char.toUpper).length := by simp [hc]
  have hi' : i < (alphabet ++ alphabet.map Char.toUpper).length := by
    simp
    omega
  have h1 : (alphabet ++ alphabet.map Char.toUpper).get ⟨i, hi'⟩ =
      alphabet.get ⟨i, hi⟩ := by
    simp only [List.get_eq_getElem]
    exact List.getElem_append_left ..
  rw [transChar, ← h1, maketrans_get _ _ hf hlen i hi']
  simp only [List.get_eq_getElem]
  exact List.getElem_append_left (by omega)

theorem transChar_upper (code : List Char)
    (hc : code.length = alphabet.length) (i : Nat) (hi : i < alphabet.length) :
    transChar code ((alphabet.map Char.toUpper).get ⟨i, by simpa using hi⟩) =
      (code.map Char.toUpper).get ⟨i, by simp; omega⟩ := by
  have hf : (alphabet ++ alphabet.map Char.toUpper).Nodup := by decide
  have hlen : (alphabet ++ alphabet.map Char.toUpper).length =
      (code ++ code.map Char.toUpper).length := by simp [hc]
  have hi' : alphabet.length + i < (alphabet ++ alphabet.map Char.toUpper).length := by
    simp
    omega
  have h1 : (alphabet ++ alphabet.map Char.toUpper).get ⟨alphabet.length + i, hi'⟩ =
      (alphabet.map Char.toUpper).get ⟨i, by simpa using hi⟩ := by
    simp only [List.get_eq_getElem]
    rw [List.getElem_append_right (by omega)]
    congr 1
    omega
  rw [transChar, ← h1, maketrans_get _ _ hf hlen _ hi']
  simp only [List.get_eq_getElem]
  rw [List.getElem_append_right (by omega)]
  congr 1
  omega

theorem transChar_id (code : List Char) (c : Char) (h1 : c ∉ alphabet)
    (h2 : c ∉ alphabet.map Char.toUpper) : transChar code c = c := by
  rw [transChar, maketrans, List.find?_eq_none.mpr]
  intro p hp
  have hmem : p.1 ∈ alphabet ++ alphabet.map Char.toUpper := by
    have hz := List.mem_reverse.mp hp
    obtain ⟨j, hj⟩ := List.getElem?_of_mem hz
    rw [List.getElem?_zip_eq_some] at hj
    exact List.mem_append.mpr (Or.elim (List.mem_append.mp
      (List.getElem?_mem hj.1)) Or.inl Or.inr)
  simp only [beq_iff_eq]
  intro hpc
  rw [hpc] at hmem
  rcases List.mem_append.mp hmem with h | h
  · exact h1 h
  · exact h2 h

theorem slice_rotate (n : Int) (h1 : -26 ≤ n) (h2 : n ≤ 26) :
    pySliceFrom alphabet n ++ pySliceTo alphabet n =
      alphabet.rotate ((n % 26).toNat) := by
  interval_cases n <;> decide

theorem transChar_comp (k1 k2 : Nat) (_h1 : k1 < 26) (_h2 : k2 < 26) (c : Char) :
    transChar (alphabet.rotate k2) (transChar (alphabet.rotate k1) c) =
      transChar (alphabet.rotate ((k1 + k2) % 26)) c := by
  have hr : ∀ k : Nat, (alphabet.rotate k).length = alphabet.length :=
    fun k => List.length_rotate ..
  have hget : ∀ (k i : Nat) (hi : i < alphabet.length),
      (alphabet.rotate k).get ⟨i, by rw [hr]; exact hi⟩ =
        alphabet.get ⟨(i + k) % 26, by
          rw [alphabet_length]
          exact Nat.mod_lt _ (by omega)⟩ := by
    intro k i hi
    simp only [List.get_eq_getElem]
    rw [List.getElem_rotate]
    congr 1
  by_cases hc1 : c ∈ alphabet
  · obtain ⟨i, hi, hci⟩ := List.getElem_of_mem hc1
    have hci' : c = alphabet.get ⟨i, hi⟩ := by rw [List.get_eq_getElem, hci]
    subst hci'
    rw [transChar_lower _ (hr k1) i hi, hget k1 i hi,
      transChar_lower _ (hr k2) ((i + k1) % 26) (by rw [alphabet_length]; omega),
      hget k2 ((i + k1) % 26) (by rw [alphabet_length]; omega),
      transChar_lower _ (hr ((k1 + k2) % 26)) i hi, hget ((k1 + k2) % 26) i hi]
    congr 1
    rw [Fin.mk.injEq]
    omega
  · by_cases hc2 : c ∈ alphabet.map Char.toUpper
    · obtain ⟨i, hiu, hci⟩ := List.getElem_of_mem hc2
      have hiu' : i < alphabet.length := by simpa using hiu
      have hci' : c = (alphabet.map Char.toUpper).get ⟨i, hiu⟩ := by
        rw [List.get_eq_getElem, hci]
      subst hci'
      have hmapget : ∀ (k i : Nat) (hi : i < alphabet.length),
          ((alphabet.rotate k).map Char.toUpper).get ⟨i, by simp [hr]; omega⟩ =
            (alphabet.map Char.toUpper).get ⟨(i + k) % 26, by
              rw [List.length_map, alphabet_length]
              exact Nat.mod_lt _ (by omega)⟩ := by
        intro k i hi
        simp only [List.get_eq_getElem]
        rw [List.getElem_map, List.getElem_rotate, List.getElem_map]
        congr 1
      rw [transChar_upper _ (hr k1) i hiu', hmapget k1 i hiu',
        transChar_upper _ (hr k2) ((i + k1) % 26) (by rw [alphabet_length]; omega),
        hmapget k2 ((i + k1) % 26) (by rw [alphabet_length]; omega),
        transChar_upper _ (hr ((k1 + k2) % 26)) i hiu',
        hmapget ((k1 + k2) % 26) i hiu']
      congr 1
      rw [Fin.mk.injEq]
      omega
    · rw [transChar_id _ c hc1 hc2, transChar_id _ c hc1 hc2,
        transChar_id _ c hc1 hc2]

/-- C4 (amended): for indices in the range `[-26, 26]`, where Python's slice
semantics coincide with rotation, composing two shift encodings is the shift
by the sum modulo 26.  (Outside this range the slices clamp and the identity
fails — see the counterexample.) -/
theorem shift_encode_comp (t : List Char) (a b : Int)
    (ha1 : -26 ≤ a) (ha2 : a ≤ 26) (hb1 : -26 ≤ b) (hb2 : b ≤ 26) :
    shift_encode (shift_encode t a) b = shift_encode t ((a + b) % 26) := by
  rw [shift_encode, shift_encode, shift_encode, slice_rotate a ha1 ha2,
    slice_rotate b hb1 hb2, slice_rotate ((a + b) % 26) (by omega) (by omega)]
  unfold encode translate
  rw [List.map_map]
  apply List.map_congr_left
  intro c _
  have hcomp := transChar_comp (a % 26).toNat (b % 26).toNat
    (by omega) (by omega) c
  have harith : ((a % 26).toNat + (b % 26).toNat) % 26 =
      ((a + b) % 26 % 26).toNat := by omega
  rw [Function.comp_apply, hcomp, harith]

/-- C4 (counterexample): Python slices clamp out-of-range indices, so
`shift_encode(text, 27)` is the identity (not a shift by 1), and composing
with a shift by 0 differs from the single shift by `(27+0) mod 26 = 1`. -/
theorem shift_encode_comp_cex :
    shift_encode (shift_encode ['a'] 27) 0 ≠ shift_encode ['a'] ((27 + 0) % 26) := by
  decide

/-- Witness for `shift_encode_comp` at `text = "za!"`, `a = 25`, `b = -3`. -/
theorem shift_encode_comp_witness :
    (-26 : Int) ≤ 25 ∧ (25 : Int) ≤ 26 ∧ (-26 : Int) ≤ -3 ∧ (-3 : Int) ≤ 26 ∧
    shift_encode (shift_encode ['z', 'a', '!'] 25) (-3) =
      shift_encode ['z', 'a', '!'] ((25 + -3) % 26) :=
  ⟨by decide, by decide, by decide, by decide,
    shift_encode_comp ['z', 'a', '!'] 25 (-3)
      (by decide) (by decide) (by decide) (by decide)⟩

/-! ### The search problem: actions, transitions, invariants (C3, C5–C7) -/

theorem pyMax_go (f : Char → ℚ) :
    ∀ (l : List Char) (m0 r : Char), l.foldl (pyMaxStep f) (some m0) = some r →
      (r = m0 ∨ r ∈ l) ∧ f m0 ≤ f r ∧ ∀ x ∈ l, f x ≤ f r := by
  intro l
  induction l with
  | nil =>
    intro m0 r h
    rw [List.foldl_nil] at h
    obtain rfl := Option.some_inj.mp h
    exact ⟨Or.inl rfl, le_refl _, by simp⟩
  | cons x xs ih =>
    intro m0 r h
    rw [List.foldl_cons] at h
    by_cases hx : f x > f m0
    · rw [show pyMaxStep f (some m0) x = some x by simp [pyMaxStep, hx]] at h
      obtain ⟨h1, h2, h3⟩ := ih x r h
      refine ⟨Or.inr ?_, le_trans (le_of_lt hx) h2, ?_⟩
      · rcases h1 with rfl | hh
        · exact List.mem_cons_self ..
        · exact List.mem_cons_of_mem _ hh
      · intro y hy
        rcases List.mem_cons.mp hy with rfl | hy'
        · exact h2
        · exact h3 y hy'
    · rw [show pyMaxStep f (some m0) x = some m0 by simp [pyMaxStep, hx]] at h
      obtain ⟨h1, h2, h3⟩ := ih m0 r h
      refine ⟨?_, h2, ?_⟩
      · rcases h1 with rfl | hh
        · exact Or.inl rfl
        · exact Or.inr (List.mem_cons_of_mem _ hh)
      · intro y hy
        rcases List.mem_cons.mp hy with rfl | hy'
        · exact le_trans (le_of_not_lt hx) h2
        · exact h3 y hy'

theorem pyMax_spec (f : Char → ℚ) (l : List Char) (m : Char)
    (h : pyMax f l = some m) : m ∈ l ∧ ∀ x ∈ l, f x ≤ f m := by
  cases l with
  | nil => simp [pyMax] at h
  | cons x xs =>
    rw [pyMax, List.foldl_cons,
      show pyMaxStep f none x = some x from rfl] at h
    obtain ⟨h1, h2, h3⟩ := pyMax_go f xs x m h
    refine ⟨?_, ?_⟩
    · rcases h1 with rfl | hh
      · exact List.mem_cons_self ..
      · exact List.mem_cons_of_mem _ hh
    · intro y hy
      rcases List.mem_cons.mp hy with rfl | hy'
      · exact h2
      · exact h3 y hy'

theorem pyMax_go_isSome (f : Char → ℚ) :
    ∀ (l : List Char) (m0 : Char), ∃ r, l.foldl (pyMaxStep f) (some m0) = some r := by
  intro l
  induction l with
  | nil => exact fun m0 => ⟨m0, rfl⟩
  | cons x xs ih =>
    intro m0
    rw [List.foldl_cons]
    by_cases hx : f x > f m0
    · rw [show pyMaxStep f (some m0) x = some x by simp [pyMaxStep, hx]]
      exact ih x
    · rw [show pyMaxStep f (some m0) x = some m0 by simp [pyMaxStep, hx]]
      exact ih m0

theorem pyMax_isSome (f : Char → ℚ) (l : List Char) (h : l ≠ []) :
    ∃ m, pyMax f l = some m := by
  cases l with
  | nil => exact absurd rfl h
  | cons x xs =>
    rw [pyMax, List.foldl_cons, show pyMaxStep f none x = some x from rfl]
    exact pyMax_go_isSome f xs x

theorem hasKey_false_iff (st : Dict) (k : Char) :
    hasKey st k = false ↔ k ∉ st.map Prod.fst := by
  rw [← Bool.not_eq_true]
  simp [hasKey, List.any_eq_true, List.mem_map]

theorem actionsF_some (domain : List Char) (P1 : Char → ℚ) (st : Dict)
    (acts : List (Char × Char)) (h : actionsF domain P1 st = some acts) :
    ∃ pc, pyMax P1 (domain.filter (fun c => ¬ hasKey st c)) = some pc ∧
      acts = (alphabet.filter (fun c => ¬ (valuesD st).contains c)).map
        (fun c => (pc, c)) := by
  simp only [actionsF] at h
  cases hm : pyMax P1 (domain.filter (fun c => ¬ hasKey st c)) with
  | none => rw [hm] at h; cases h
  | some pc =>
    rw [hm] at h
    exact ⟨pc, rfl, (Option.some_inj.mp h).symm⟩

theorem lookupD_append_self (st : Dict) (k v : Char) :
    lookupD (st ++ [(k, v)]) k = some v := by
  induction st with
  | nil => simp [lookupD]
  | cons p st ih => simp only [List.cons_append, lookupD, List.append_eq, ih]

theorem lookupD_append_ne (st : Dict) (k v k' : Char) (h : k' ≠ k) :
    lookupD (st ++ [(k, v)]) k' = lookupD st k' := by
  induction st with
  | nil => simp [lookupD, Ne.symm h]
  | cons p st ih =>
    rw [List.cons_append]
    show (match lookupD (st ++ [(k, v)]) k' with
        | some w => some w
        | none => if p.1 = k' then some p.2 else none) =
      (match lookupD st k' with
        | some w => some w
        | none => if p.1 = k' then some p.2 else none)
    rw [ih]

theorem lookupD_mapupdate_self (st : Dict) (k v : Char) :
    lookupD (st.map (fun p => if p.1 == k then (k, v) else p)) k =
      if hasKey st k then some v else none := by
  induction st with
  | nil => simp [lookupD, hasKey]
  | cons p st ih =>
    have hcons : hasKey (p :: st) k = ((p.1 == k) || hasKey st k) := by
      simp [hasKey]
    simp only [List.map_cons, lookupD, ih, hcons]
    by_cases hp : p.1 = k
    · by_cases hk : hasKey st k <;> simp [hp, hk]
    · by_cases hk : hasKey st k <;> simp [hp, hk]

theorem lookupD_mapupdate_ne (st : Dict) (k v k' : Char) (h : k' ≠ k) :
    lookupD (st.map (fun p => if p.1 == k then (k, v) else p)) k' =
      lookupD st k' := by
  induction st with
  | nil => rfl
  | cons p st ih =>
    simp only [List.map_cons, lookupD, ih]
    by_cases hp : p.1 = k
    · cases lookupD st k' <;> simp [hp, Ne.symm h]
    · simp [hp]

theorem dictSet_lookup_self (st : Dict) (k v : Char) :
    lookupD (dictSet st k v) k = some v := by
  unfold dictSet
  by_cases hk : hasKey st k
  · rw [if_pos hk, lookupD_mapupdate_self, if_pos hk]
  · rw [if_neg hk]
    exact lookupD_append_self st k v

theorem dictSet_lookup_ne (st : Dict) (k v k' : Char) (h : k' ≠ k) :
    lookupD (dictSet st k v) k' = lookupD st k' := by
  unfold dictSet
  by_cases hk : hasKey st k
  · rw [if_pos hk]
    exact lookupD_mapupdate_ne st k v k' h
  · rw [if_neg hk]
    exact lookupD_append_ne st k v k' h

theorem dictSet_fresh (st : Dict) (k v : Char) (h : hasKey st k = false) :
    dictSet st k v = st ++ [(k, v)] := by
  unfold dictSet
  rw [if_neg (by simp [h])]

/-- C7: `result(state, action)` returns the map-update of the state by the
one new pair — the new key maps to the new value, every other key keeps its
binding, and a fresh key is appended after a copy of the state.  The parent
state is untouched: `result` is a pure function of its arguments (the Python
code copies via `hashabledict(state)` before assigning). -/
theorem result_copies_and_extends (st : Dict) (a : Char × Char) :
    lookupD (resultF st a) a.1 = some a.2 ∧
    (∀ k, k ≠ a.1 → lookupD (resultF st a) k = lookupD st k) ∧
    (hasKey st a.1 = false → resultF st a = st ++ [(a.1, a.2)]) :=
  ⟨dictSet_lookup_self st a.1 a.2,
    fun k hk => dictSet_lookup_ne st a.1 a.2 k hk,
    fun h => dictSet_fresh st a.1 a.2 h⟩

/-- Witness for `result_copies_and_extends` at a concrete state and action. -/
theorem result_copies_and_extends_witness :
    lookupD (resultF [('z', 'e')] ('q', 'a')) 'q' = some 'a' ∧
    (∀ k, k ≠ 'q' → lookupD (resultF [('z', 'e')] ('q', 'a')) k =
      lookupD [('z', 'e')] k) ∧
    (hasKey [('z', 'e')] 'q' = false →
      resultF [('z', 'e')] ('q', 'a') = [('z', 'e')] ++ [('q', 'a')]) :=
  result_copies_and_extends [('z', 'e')] ('q', 'a')

/-- Shared invariant of all reachable search states: keys are distinct and
drawn from the cipher domain, values are distinct and drawn from the
alphabet — a partial injective map. -/
theorem reachable_inv (domain : List Char) (P1 : Char → ℚ) (st : Dict)
    (h : Reachable domain P1 st) :
    (st.map Prod.fst).Nodup ∧ (valuesD st).Nodup ∧
      ∀ p ∈ st, p.1 ∈ domain ∧ p.2 ∈ alphabet := by
  induction h with
  | init => simp [valuesD]
  | step st acts a hr hacts hmem ih =>
    obtain ⟨pc, hpc, rfl⟩ := actionsF_some domain P1 st acts hacts
    obtain ⟨tc, htc_mem, rfl⟩ := List.mem_map.mp hmem
    have htc := List.mem_filter.mp htc_mem
    have htc2 : tc ∉ valuesD st := by simpa using htc.2
    have hspec := pyMax_spec P1 _ pc hpc
    have hfilter := List.mem_filter.mp hspec.1
    have hpc_key : hasKey st pc = false := by simpa using hfilter.2
    have hpc_notkey : pc ∉ st.map Prod.fst := (hasKey_false_iff st pc).mp hpc_key
    have hres : resultF st (pc, tc) = st ++ [(pc, tc)] :=
      dictSet_fresh st pc tc hpc_key
    rw [hres]
    obtain ⟨ih1, ih2, ih3⟩ := ih
    refine ⟨?_, ?_, ?_⟩
    · rw [List.map_append]
      simp [List.nodup_append, ih1, hpc_notkey]
    · rw [valuesD, List.map_append, ← valuesD]
      simp [List.nodup_append, ih2, htc2]
    · intro p hp
      rcases List.mem_append.mp hp with hp | hp
      · exact ih3 p hp
      · obtain rfl : p = (pc, tc) := by simpa using hp
        exact ⟨hfilter.1, htc.1⟩

/-- C6: every state reachable by `actions`/`result` from the empty mapping is
a partial injective map from cipher domain to alphabet, and every transition
appends exactly one fresh pair — it never overwrites an existing key. -/
theorem reachable_states_partial_injective (domain : List Char)
    (P1 : Char → ℚ) (st : Dict) (h : Reachable domain P1 st) :
    ((st.map Prod.fst).Nodup ∧ (valuesD st).Nodup ∧
      ∀ p ∈ st, p.1 ∈ domain ∧ p.2 ∈ alphabet) ∧
    ∀ acts a, actionsF domain P1 st = some acts → a ∈ acts →
      hasKey st a.1 = false ∧ resultF st a = st ++ [(a.1, a.2)] ∧
      (resultF st a).length = st.length + 1 := by
  refine ⟨reachable_inv domain P1 st h, ?_⟩
  intro acts a hacts hmem
  obtain ⟨pc, hpc, rfl⟩ := actionsF_some domain P1 st acts hacts
  obtain ⟨tc, _, rfl⟩ := List.mem_map.mp hmem
  have hspec := pyMax_spec P1 _ pc hpc
  have hfilter := List.mem_filter.mp hspec.1
  have hpc_key : hasKey st pc = false := by simpa using hfilter.2
  have hres : resultF st (pc, tc) = st ++ [(pc, tc)] :=
    dictSet_fresh st pc tc hpc_key
  exact ⟨hpc_key, hres, by rw [hres]; simp⟩

/-- Witness for `reachable_states_partial_injective` at the initial state. -/
theorem reachable_states_partial_injective_witness :
    (((([] : Dict).map Prod.fst).Nodup ∧ (valuesD []).Nodup ∧
      ∀ p ∈ ([] : Dict), p.1 ∈ ['z'] ∧ p.2 ∈ alphabet) ∧
    ∀ acts a, actionsF ['z'] (fun _ => (0 : ℚ)) [] = some acts → a ∈ acts →
      hasKey [] a.1 = false ∧ resultF [] a = [] ++ [(a.1, a.2)] ∧
      (resultF [] a).length = ([] : Dict).length + 1) :=
  reachable_states_partial_injective ['z'] (fun _ => 0) [] Reachable.init

/-- C5: on every reachable non-goal state, `actions` yields one action per
alphabet letter not already used as a target value, and every action shares
one cipher character: an unmapped domain character of maximal letter-unigram
probability. -/
theorem actions_single_best_char (domain : List Char) (P1 : Char → ℚ)
    (st : Dict) (hd : domain.Nodup) (h : Reachable domain P1 st)
    (hng : ¬ goalF domain st) :
    ∃ pc, pc ∈ domain ∧ hasKey st pc = false ∧
      (∀ d ∈ domain, hasKey st d = false → P1 d ≤ P1 pc) ∧
      actionsF domain P1 st =
        some ((alphabet.filter (fun c => ¬ (valuesD st).contains c)).map
          (fun c => (pc, c))) := by
  have hkeys := (reachable_inv domain P1 st h).1
  have hne : domain.filter (fun c => ¬ hasKey st c) ≠ [] := by
    intro hempty
    have hsub : domain ⊆ st.map Prod.fst := by
      intro c hc
      by_contra hcn
      have hmem : c ∈ domain.filter (fun c => ¬ hasKey st c) := by
        rw [List.mem_filter]
        refine ⟨hc, ?_⟩
        simpa using (hasKey_false_iff st c).mpr hcn
      rw [hempty] at hmem
      cases hmem
    have hle : domain.length ≤ (st.map Prod.fst).length := by
      calc domain.length = domain.toFinset.card :=
            (List.toFinset_card_of_nodup hd).symm
        _ ≤ (st.map Prod.fst).toFinset.card :=
            Finset.card_le_card
              (fun x hx => List.mem_toFinset.mpr (hsub (List.mem_toFinset.mp hx)))
        _ ≤ (st.map Prod.fst).length := List.toFinset_card_le _
    rw [List.length_map] at hle
    exact hng hle
  obtain ⟨pc, hpc⟩ := pyMax_isSome P1 _ hne
  have hspec := pyMax_spec P1 _ pc hpc
  have hfilter := List.mem_filter.mp hspec.1
  refine ⟨pc, hfilter.1, by simpa using hfilter.2, ?_, ?_⟩
  · intro d hdm hdk
    refine hspec.2 d (List.mem_filter.mpr ⟨hdm, ?_⟩)
    simpa using hdk
  · simp only [actionsF]
    rw [hpc]
    rfl

/-- Witness for `actions_single_best_char` at the initial state over the
domain `{z, e}`. -/
theorem actions_single_best_char_witness :
    ∃ pc, pc ∈ ['z', 'e'] ∧ hasKey [] pc = false ∧
      (∀ d ∈ ['z', 'e'], hasKey [] d = false →
        (fun c => if c = 'e' then (2 : ℚ) else 1) d ≤
          (fun c => if c = 'e' then (2 : ℚ) else 1) pc) ∧
      actionsF ['z', 'e'] (fun c => if c = 'e' then (2 : ℚ) else 1) [] =
        some ((alphabet.filter (fun c => ¬ (valuesD []).contains c)).map
          (fun c => (pc, c))) :=
  actions_single_best_char ['z', 'e'] (fun c => if c = 'e' then 2 else 1) []
    (by decide) Reachable.init (by simp [goalF])

theorem values_bound (st : Dict) (hnd : (valuesD st).Nodup)
    (hsub : ∀ v ∈ valuesD st, v ∈ alphabet) : st.length ≤ 26 := by
  have h1 : (valuesD st).toFinset.card = (valuesD st).length :=
    List.toFinset_card_of_nodup hnd
  have h3 : (valuesD st).toFinset.card ≤ alphabet.toFinset.card :=
    Finset.card_le_card
      (fun v hv => List.mem_toFinset.mpr (hsub v (List.mem_toFinset.mp hv)))
  have h4 : alphabet.toFinset.card ≤ alphabet.length := List.toFinset_card_le _
  have h5 : (valuesD st).length = st.length := List.length_map ..
  have h6 : alphabet.length = 26 := alphabet_length
  omega

/-- No reachable state can satisfy the goal test when the cipher domain has
more than 26 characters, so the modelled search engine returns `None` and
`decode` ends in the `AttributeError` — not in an `UnsupportedDomainError`,
which does not exist in the code. -/
theorem decode_oversized (P1 : Char → ℚ) (ciphertext : List Char)
    (h : 26 < (domainOf ciphertext).length) :
    decodeF P1 ciphertext = DecodeOutcome.noneAttributeError := by
  have hne : ¬ ∃ st, Reachable (domainOf ciphertext) P1 st ∧
      goalF (domainOf ciphertext) st := by
    rintro ⟨st, hr, hg⟩
    obtain ⟨h1, h2, h3⟩ := reachable_inv _ P1 st hr
    have hle : st.length ≤ 26 := values_bound st h2 (fun v hv => by
      obtain ⟨p, hp, rfl⟩ := List.mem_map.mp hv
      exact (h3 p hp).2)
    rw [goalF] at hg
    omega
  simp only [decodeF]
  rw [dif_neg hne]

/-- C3 (amended): when the canonicalized ciphertext's character domain has
more than 26 elements, no reachable state passes the goal test, so the search
engine finds no solution and `decode` fails with the `AttributeError` from
dereferencing the `None` result — it neither loops indefinitely nor signals an
`UnsupportedDomainError` (no such error class exists in the code). -/
theorem decode_oversized_domain_fails (P1 : Char → ℚ) (ct : List Char)
    (h : 26 < (domainOf ct).length) :
    decodeF P1 ct = DecodeOutcome.noneAttributeError ∧
    ∀ st, Reachable (domainOf ct) P1 st → ¬ goalF (domainOf ct) st := by
  refine ⟨decode_oversized P1 ct h, ?_⟩
  intro st hr hg
  obtain ⟨h1, h2, h3⟩ := reachable_inv _ P1 st hr
  have hle : st.length ≤ 26 := values_bound st h2 (fun v hv => by
    obtain ⟨p, hp, rfl⟩ := List.mem_map.mp hv
    exact (h3 p hp).2)
  rw [goalF] at hg
  omega

/-- C3 (counterexample): a ciphertext whose canonicalized domain has 27
characters makes `decode` end in the `None`-dereference `AttributeError`;
the outcome type — an exhaustive case analysis of the source — has no
`UnsupportedDomainError` to signal. -/
theorem decode_no_unsupported_error_cex :
    26 < (domainOf "abcdefghijklmnopqrstuvwxyz 0".toList).length ∧
    decodeF (fun _ => 0) "abcdefghijklmnopqrstuvwxyz 0".toList =
      DecodeOutcome.noneAttributeError :=
  ⟨by decide, decode_oversized (fun _ => 0) _ (by decide)⟩

/-- Witness for `decode_oversized_domain_fails` on a 28-character domain. -/
theorem decode_oversized_domain_fails_witness :
    26 < (domainOf "the quick brown fox jumps over a lazy dog 42".toList).length ∧
    (decodeF (fun _ => 1) "the quick brown fox jumps over a lazy dog 42".toList =
        DecodeOutcome.noneAttributeError ∧
      ∀ st, Reachable
          (domainOf "the quick brown fox jumps over a lazy dog 42".toList)
          (fun _ => 1) st →
        ¬ goalF (domainOf "the quick brown fox jumps over a lazy dog 42".toList) st) :=
  ⟨by decide, decode_oversized_domain_fails (fun _ => 1) _ (by decide)⟩

/-- C2 (code bug): on the training text `"th th"`, the `P2` model built by
`PermutationDecoder.__init__` records exactly the word pair
`("th", "th")` — it is a *word*-bigram distribution, not the letter-bigram
(n=2 character) model the spec (and the code's own comment `# By letter
pair`) describe.  The 2-character string keys that `score` later looks up
(`self.P2[b]` for `b` in `bigrams(text)`) can never equal a tuple key, and
even the character pair `('t','h')` — which the would-be character model
(`NgramCharModel(2, ...)`, also in `text.py`) counts twice on this text —
has count 0 in the trained `P2`. -/
theorem pd_bigram_model_counts_word_pairs :
    (permutationDecoderInit "th th".toList).P2 =
      [PyKey.tup [['t', 'h'], ['t', 'h']]] ∧
    cpdCount (permutationDecoderInit "th th".toList).P2 (PyKey.str ['t', 'h']) = 0 ∧
    (∀ c1 c2 : Char,
      cpdCount (permutationDecoderInit "th th".toList).P2
        (PyKey.tup [[c1], [c2]]) = 0) ∧
    cpdCount (charBigramObs "th th".toList) (PyKey.tup [['t'], ['h']]) = 2 := by
  refine ⟨by decide, by decide, ?_, by decide⟩
  intro c1 c2
  have hobs : (permutationDecoderInit "th th".toList).P2 =
      [PyKey.tup [['t', 'h'], ['t', 'h']]] := by decide
  rw [hobs, cpdCount]
  have hne : PyKey.tup [[c1], [c2]] ≠ PyKey.tup [['t', 'h'], ['t', 'h']] := by
    intro he
    injection he with h
    simp at h
  simp [List.count_cons, hne]

/-- Witness instantiating the universally quantified part of
`pd_bigram_model_counts_word_pairs` at the character pair `('t','h')`: the
most frequent character bigram of the training text still has count 0 in the
trained `P2`. -/
theorem pd_bigram_model_counts_word_pairs_witness :
    cpdCount (permutationDecoderInit "th th".toList).P2
      (PyKey.tup [['t'], ['h']]) = 0 :=
  pd_bigram_model_counts_word_pairs.2.2.1 't' 'h'

/-! ### The scorer completes the mapping with identity + space (C8) -/

theorem lookupD_isSome_iff (st : Dict) (k : Char) :
    (lookupD st k).isSome = hasKey st k := by
  induction st with
  | nil => rfl
  | cons p st ih =>
    have hcons : hasKey (p :: st) k = ((p.1 == k) || hasKey st k) := by
      simp [hasKey]
    show (match lookupD st k with
      | some w => some w
      | none => if p.1 = k then some p.2 else none).isSome = hasKey (p :: st) k
    rw [hcons, ← ih]
    cases hl : lookupD st k with
    | some v => simp
    | none =>
      by_cases hp : p.1 = k <;> simp [hp]

theorem lookupD_none_of_hasKey_false (st : Dict) (k : Char)
    (h : hasKey st k = false) : lookupD st k = none := by
  cases hl : lookupD st k with
  | none => rfl
  | some v =>
    have hs := lookupD_isSome_iff st k
    rw [hl, h] at hs
    cases hs

theorem fold_identity_lookup (code : Dict) (c : Char) :
    ∀ (l : List Char) (d : Dict),
      lookupD (l.foldl (fun d x => if hasKey code x then d else dictSet d x x) d) c =
        if c ∈ l ∧ hasKey code c = false then some c else lookupD d c := by
  intro l
  induction l with
  | nil =>
    intro d
    simp
  | cons x xs ih =>
    intro d
    rw [List.foldl_cons, ih]
    by_cases hkey : hasKey code c
    · have h1 : ¬ (c ∈ xs ∧ hasKey code c = false) := by
        rintro ⟨_, hf⟩
        rw [hkey] at hf
        exact Bool.noConfusion hf
      have h2 : ¬ (c ∈ x :: xs ∧ hasKey code c = false) := by
        rintro ⟨_, hf⟩
        rw [hkey] at hf
        exact Bool.noConfusion hf
      rw [if_neg h1, if_neg h2]
      by_cases hx : hasKey code x
      · rw [if_pos hx]
      · rw [if_neg hx]
        exact dictSet_lookup_ne d x x c fun hcx => hx (hcx ▸ hkey)
    · have hkf : hasKey code c = false := by simpa using hkey
      by_cases hmem : c ∈ xs
      · rw [if_pos ⟨hmem, hkf⟩, if_pos ⟨List.mem_cons_of_mem x hmem, hkf⟩]
      · have hlhs : ¬ (c ∈ xs ∧ hasKey code c = false) := fun hcon => hmem hcon.1
        rw [if_neg hlhs]
        by_cases hx : x = c
        · subst hx
          have hrhs : x ∈ x :: xs ∧ hasKey code x = false :=
            ⟨List.mem_cons_self x xs, hkf⟩
          rw [if_pos hrhs, if_neg hkey, dictSet_lookup_self]
        · have hrhs : ¬ (c ∈ x :: xs ∧ hasKey code c = false) := by
            rintro ⟨hm, _⟩
            rcases List.mem_cons.mp hm with h | h
            · exact hx h.symm
            · exact hmem h
          rw [if_neg hrhs]
          by_cases hxk : hasKey code x
          · rw [if_pos hxk]
          · rw [if_neg hxk]
            exact dictSet_lookup_ne d x x c (Ne.symm hx)

theorem buildFullCode_lookup (code : Dict) (dom : List Char) (c : Char)
    (h : c = ' ' ∨ c ∈ dom) :
    lookupD (buildFullCode code dom) c = some (completedFn code c) := by
  rcases eq_or_ne c ' ' with rfl | hc
  · rw [buildFullCode, dictSet_lookup_self, completedFn, if_pos rfl]
  · have hcd : c ∈ dom := h.resolve_left hc
    rw [buildFullCode, dictSet_lookup_ne _ _ _ _ hc, fold_identity_lookup,
      completedFn, if_neg hc]
    by_cases hkey : hasKey code c
    · rw [if_neg (by simp [hkey])]
      cases hl : lookupD code c with
      | some v => rfl
      | none =>
        have hs := lookupD_isSome_iff code c
        rw [hl, eq_comm] at hs
        simp [hkey] at hs
    · rw [if_pos ⟨hcd, by simpa using hkey⟩,
        lookupD_none_of_hasKey_false code c (by simpa using hkey)]

theorem canonical_cover (raw : List Char) :
    ∀ c ∈ canonicalizeF raw, c = ' ' ∨ c ∈ domainOf raw := by
  intro c hc
  by_cases h : c = ' '
  · exact Or.inl h
  · refine Or.inr ?_
    rw [domainOf, List.mem_dedup, List.mem_filter]
    exact ⟨hc, by simp [h]⟩

theorem score_translate (code : Dict) (dom : List Char) :
    ∀ ct : List Char, (∀ c ∈ ct, c = ' ' ∨ c ∈ dom) →
      ct.mapM (fun c => lookupD (buildFullCode code dom) c) =
        some (ct.map (completedFn code)) := by
  intro ct
  induction ct with
  | nil => intro _; rfl
  | cons c cs ih =>
    intro h
    rw [List.mapM_cons,
      buildFullCode_lookup code dom c (h c (List.mem_cons_self ..)),
      ih fun x hx => h x (List.mem_cons_of_mem _ hx)]
    rfl

/-- C8: on the canonicalized ciphertext and its character domain (the
configuration `decode` establishes before searching), `score` of any partial
mapping completes the mapping by sending every unmapped domain letter to
itself and space to space, translates the ciphertext with that completed
mapping, and returns exactly `-exp(logP)` with
`logP = Σ log(Pword+1e-20) + Σ log(Pletter+1e-5) + Σ log(Pbigram+1e-10)`
over the words, characters, and adjacent pairs of the translated text; the
function is pure and deterministic (a mathematical function of its
arguments). -/
theorem score_completes_and_scores (Pw : List Char → ℝ) (P1c : Char → ℝ)
    (P2c : List Char → ℝ) (raw : List Char) (code : Dict) :
    scoreF Pw P1c P2c (domainOf raw) (canonicalizeF raw) code =
      some (-Real.exp (scoreLogP Pw P1c P2c
        ((canonicalizeF raw).map (completedFn code)))) := by
  unfold scoreF
  rw [score_translate code (domainOf raw) (canonicalizeF raw)
    (canonical_cover raw)]

end AimaText
